import Mathlib

/-!
Verification of the conspiracy-graph pipeline core against its sources.

The development shallowly embeds the pure cores of the pipeline scripts:

* `extract_triplets` from `scripts/extract_entities/extract_entities.py`
  (the token-marker parser),
* the checkpointed resume loop shared by
  `scripts/extract_entities/extract_entities.py::process_file` and
  `scripts/filter_entities/filter_entities.py::process_and_link_entities`,
* `best_single_record_similarity`, `filter_wikidata_results` and
  `search_wikidata` from `scripts/filter_entities/filter_entities.py`,
* `generate_raw_edge_counts` and `normalize_edges` from
  `scripts/build_knowledge_graph/build_graph_data.py`,
* `read_and_decode` and the line loop of `read_lines_zst` from
  `scripts/extract_data.py` (and `data_extraction/submissions_extraction.py`).

Python strings are modelled as Lean `String` (or `List Char` where line
splitting must be reasoned about), Python ints as `Nat`/`Int`, Python floats
as `ℚ`, a raised exception / `sys.exit` as the `Except`/`Option` error case.
-/

/-- A (head, relation, tail) record, as produced by `extract_triplets`
(the Python dict `{"head": ..., "type": ..., "tail": ...}`). -/
structure Triple where
  head : String
  type : String
  tail : String
deriving DecidableEq, Repr

/-- The mutable state of the `extract_triplets` loop: the three accumulator
strings `relation`, `subject`, `object_` and the current-target tag
(`"x"`, `"t"`, `"s"` or `"o"`). -/
structure TripState where
  relation : String
  subject : String
  object_ : String
  current : String
deriving DecidableEq, Repr

/-- Python `str.replace` on character lists: replace non-overlapping
occurrences of `pat` left to right.  The first argument is fuel, always
called with the length of the scanned list (each step consumes at least one
character, so that much fuel suffices). -/
def pyReplaceAux (pat repl : List Char) : Nat → List Char → List Char
  | 0, s => s
  | _ + 1, [] => []
  | n + 1, c :: cs =>
    if pat ≠ [] ∧ pat.isPrefixOf (c :: cs) then
      repl ++ pyReplaceAux pat repl n ((c :: cs).drop pat.length)
    else
      c :: pyReplaceAux pat repl n cs

/-- Python `s.replace(pat, repl)` for strings. -/
def pyReplace (s pat repl : String) : String :=
  ⟨pyReplaceAux pat.data repl.data s.data.length s.data⟩

/-- Python `str.split()` with no argument: split on runs of whitespace,
discarding empty pieces.  `cur` is the reversed current word. -/
def pySplitWsAux (cur : List Char) : List Char → List (List Char)
  | [] => if cur = [] then [] else [cur.reverse]
  | c :: cs =>
    if c.isWhitespace then
      if cur = [] then pySplitWsAux [] cs
      else cur.reverse :: pySplitWsAux [] cs
    else
      pySplitWsAux (c :: cur) cs

/-- Python `s.split()` for strings. -/
def pySplitWs (s : String) : List String :=
  (pySplitWsAux [] s.data).map fun l => ⟨l⟩

/-- Python `s.strip()`: drop leading and trailing whitespace. -/
def pyStrip (s : String) : String :=
  ⟨(((s.data.dropWhile Char.isWhitespace).reverse.dropWhile
      Char.isWhitespace).reverse)⟩

/-- Removal of the extra markers `<s>`, `<pad>`, `</s>` followed by
whitespace splitting, as in
`text.replace("<s>", "").replace("<pad>", "").replace("</s>", "").split()`. -/
def tokenizeTriplets (text : String) : List String :=
  pySplitWs (pyReplace (pyReplace (pyReplace text "<s>" "") "<pad>" "") "</s>" "")

/-- One iteration of the token loop of `extract_triplets`
(`extract_entities.py`, lines 110-154). -/
def extractStep (acc : List Triple × TripState) (token : String) :
    List Triple × TripState :=
  let triplets := acc.1
  let st := acc.2
  if token = "<triplet>" then
    if st.relation ≠ "" then
      (triplets ++ [⟨pyStrip st.subject, pyStrip st.relation, pyStrip st.object_⟩],
        { relation := "", subject := "", object_ := "", current := "t" })
    else
      (triplets, { st with current := "t" })
  else if token = "<subj>" then
    if st.relation ≠ "" then
      (triplets ++ [⟨pyStrip st.subject, pyStrip st.relation, pyStrip st.object_⟩],
        { st with subject := "", object_ := "", current := "s" })
    else
      (triplets, { st with current := "s" })
  else if token = "<obj>" then
    (triplets, { st with relation := "", current := "o" })
  else if st.current = "t" then
    (triplets, { st with subject := st.subject ++ " " ++ token })
  else if st.current = "s" then
    (triplets, { st with object_ := st.object_ ++ " " ++ token })
  else if st.current = "o" then
    (triplets, { st with relation := st.relation ++ " " ++ token })
  else
    (triplets, st)

/-- The parser `extract_triplets` of `extract_entities.py`: fold the token
loop over the token stream, then append the final triple when all three
buffers are non-empty. -/
def extract_triplets (text : String) : List Triple :=
  let r := (tokenizeTriplets text).foldl extractStep
    ([], { relation := "", subject := "", object_ := "", current := "x" })
  if r.2.subject ≠ "" ∧ r.2.relation ≠ "" ∧ r.2.object_ ≠ "" then
    r.1 ++ [⟨pyStrip r.2.subject, pyStrip r.2.relation, pyStrip r.2.object_⟩]
  else
    r.1

/-- The checkpointed line loop shared by
`extract_entities.py::process_file` (lines 240-251) and
`filter_entities.py::process_and_link_entities` (lines 217-229): lines are
numbered from 1 as they are read; a line whose number is strictly below the
persisted cursor `startLine` is skipped with `continue` before the body
runs; on every other line the per-line body (`transform`, which receives the
line number and the line) runs.  The counter argument is the line number of
the previously read line (0 initially).  The result lists, in order, the
(line number, body output) pairs for the lines actually processed. -/
def processLinesFrom {α β : Type} (transform : Nat → α → β) (startLine : Nat) :
    Nat → List α → List (Nat × β)
  | _, [] => []
  | lineNum, l :: rest =>
    if lineNum + 1 < startLine then
      processLinesFrom transform startLine (lineNum + 1) rest
    else
      (lineNum + 1, transform (lineNum + 1) l) ::
        processLinesFrom transform startLine (lineNum + 1) rest

/-- The loop of `process_file` / `process_and_link_entities` over a whole
input, starting with line counter 0. -/
def process_file_lines {α β : Type} (transform : Nat → α → β) (startLine : Nat)
    (lines : List α) : List (Nat × β) :=
  processLinesFrom transform startLine 0 lines

theorem processLinesFrom_eq {α β : Type} (transform : Nat → α → β) (c : Nat) :
    ∀ (lines : List α) (k : Nat),
      processLinesFrom transform c k lines =
        (((List.range' (k + 1) lines.length).zip lines).filter
            (fun p => decide (c ≤ p.1))).map
          (fun p => (p.1, transform p.1 p.2)) := by
  intro lines
  induction lines with
  | nil => intro k; simp [processLinesFrom]
  | cons a l ih =>
    intro k
    simp only [processLinesFrom, List.length_cons, List.range'_succ,
      List.zip_cons_cons, List.filter_cons]
    by_cases h : k + 1 < c
    · rw [if_pos h]
      have hnc : ¬ c ≤ k + 1 := by omega
      simp [hnc, ih]
    · rw [if_neg h]
      have hc : c ≤ k + 1 := by omega
      simp [hc, ih]

/-- C1: re-running with a persisted cursor `c` applies the per-line body to
no line whose 1-based number is strictly below `c` — such lines are skipped
before the body is invoked — and every line numbered `c` or above is
processed: the loop output is exactly the 1-based enumeration of the input,
restricted to line numbers `≥ c`, transformed. -/
theorem process_file_lines_skip_below_cursor {α β : Type}
    (transform : Nat → α → β) (c : Nat) (lines : List α) :
    process_file_lines transform c lines =
      (((List.range' 1 lines.length).zip lines).filter
          (fun p => decide (c ≤ p.1))).map
        (fun p => (p.1, transform p.1 p.2)) :=
  processLinesFrom_eq transform c lines 0

/-- A knowledge-base search record: a label and an ordered list of aliases.
Models one entry of the `search` array of a Wikidata
`wbsearchentities` response, as read by `filter_entities.py`. -/
structure KBCandidate where
  label : String
  aliases : List String
deriving DecidableEq, Repr

/-- The function `best_single_record_similarity` of `filter_entities.py`:
the maximum of `ratio candidate original_term` over the label and all
aliases of the record.  The string-similarity `ratio` (fuzzywuzzy's
`fuzz.ratio`, 0-100) is an external library function and is a parameter. -/
def best_single_record_similarity (ratio : String → String → Nat)
    (original_term : String) (record : KBCandidate) : Nat :=
  ((record.label :: record.aliases).map
      (fun candidate => ratio candidate original_term)).foldl Nat.max 0

/-- The scanning loop of `filter_wikidata_results` (`filter_entities.py`,
lines 174-196), carrying the accumulators `best_match` and
`highest_similarity`. -/
def filterResultsLoop (ratio : String → String → Nat) (original_term : String)
    (threshold : Nat) :
    List KBCandidate → Option String → Nat → Option String
  | [], best_match, _ => best_match
  | result :: rest, best_match, highest_similarity =>
    let similarity := best_single_record_similarity ratio original_term result
    if similarity = 100 then
      some result.label
    else if similarity > highest_similarity ∧ similarity ≥ threshold then
      filterResultsLoop ratio original_term threshold rest (some result.label)
        similarity
    else
      filterResultsLoop ratio original_term threshold rest best_match
        highest_similarity

/-- The function `filter_wikidata_results` of `filter_entities.py`:
scan the candidates in received order starting from `best_match = None`,
`highest_similarity = 0`. -/
def filter_wikidata_results (ratio : String → String → Nat)
    (original_term : String) (wikidata_results : List KBCandidate)
    (threshold : Nat) : Option String :=
  filterResultsLoop ratio original_term threshold wikidata_results none 0

theorem filterResultsLoop_exact (ratio : String → String → Nat)
    (term : String) (threshold : Nat) (r : KBCandidate)
    (post : List KBCandidate)
    (hr : best_single_record_similarity ratio term r = 100) :
    ∀ (pre : List KBCandidate),
      (∀ r' ∈ pre, best_single_record_similarity ratio term r' ≠ 100) →
      ∀ (bm : Option String) (hs : Nat),
        filterResultsLoop ratio term threshold (pre ++ r :: post) bm hs =
          some r.label := by
  intro pre
  induction pre with
  | nil =>
    intro _ bm hs
    simp [filterResultsLoop, hr]
  | cons q l ih =>
    intro hpre bm hs
    have hq : best_single_record_similarity ratio term q ≠ 100 :=
      hpre q (List.mem_cons_self q l)
    have hl : ∀ r' ∈ l, best_single_record_similarity ratio term r' ≠ 100 :=
      fun r' hm => hpre r' (List.mem_cons_of_mem q hm)
    simp only [List.cons_append, filterResultsLoop, if_neg hq]
    by_cases hcase :
        best_single_record_similarity ratio term q > hs ∧
          best_single_record_similarity ratio term q ≥ threshold
    · rw [if_pos hcase]; exact ih hl _ _
    · rw [if_neg hcase]; exact ih hl _ _

/-- C6: if some candidate's best similarity (maximum ratio over its label
and all aliases) equals 100, the resolver returns the label of the first
such candidate immediately, for every threshold, every similarity function,
every prefix of non-exact candidates and every suffix of later candidates —
in particular even when only an alias matched and the returned label
differs from the mention. -/
theorem filter_wikidata_results_exact_alias_short_circuit
    (ratio : String → String → Nat) (term : String) (threshold : Nat)
    (pre : List KBCandidate) (r : KBCandidate) (post : List KBCandidate)
    (hpre : ∀ r' ∈ pre, best_single_record_similarity ratio term r' ≠ 100)
    (hr : best_single_record_similarity ratio term r = 100) :
    filter_wikidata_results ratio term (pre ++ r :: post) threshold =
      some r.label :=
  filterResultsLoop_exact ratio term threshold r post hr pre hpre none 0

/-- Witness for C6: the mention "CIA" matches the alias of the record
labelled "Central Intelligence Agency" exactly; an earlier non-matching
candidate and a later candidate are present, the threshold is 0, and the
returned label is the (substantially different) record label. -/
theorem filter_wikidata_results_exact_alias_witness :
    (∀ r' ∈ [KBCandidate.mk "Langley" []],
        best_single_record_similarity
          (fun a b => if a = b then 100 else 0) "CIA" r' ≠ 100) ∧
      best_single_record_similarity (fun a b => if a = b then 100 else 0)
        "CIA" ⟨"Central Intelligence Agency", ["CIA"]⟩ = 100 ∧
      filter_wikidata_results (fun a b => if a = b then 100 else 0) "CIA"
          ([⟨"Langley", []⟩] ++ ⟨"Central Intelligence Agency", ["CIA"]⟩ ::
            [⟨"Quantico", []⟩]) 0 =
        some "Central Intelligence Agency" :=
  ⟨by decide, by decide,
    filter_wikidata_results_exact_alias_short_circuit
      (fun a b => if a = b then 100 else 0) "CIA" 0 [⟨"Langley", []⟩]
      ⟨"Central Intelligence Agency", ["CIA"]⟩ [⟨"Quantico", []⟩]
      (by decide) (by decide)⟩

/-- The function `search_wikidata` of `filter_entities.py`, modelled on the
received response: a 200 status returns the `search` list of the body; a
403 status calls `sys.exit(1)`, aborting the whole run (the `Except.error`
case); any other status is logged and yields the empty candidate list. -/
def search_wikidata (status_code : Nat)
    (search_results : List KBCandidate) : Except Unit (List KBCandidate) :=
  if status_code = 200 then Except.ok search_results
  else if status_code = 403 then Except.error ()
  else Except.ok []

/-- C7: an authorization-denied (403) response aborts the entire run; every
other non-success response yields an empty candidate list (not fatal); a
success (200) response yields the received candidate list. -/
theorem search_wikidata_failure_semantics :
    (∀ body, search_wikidata 403 body = Except.error ()) ∧
      (∀ status body, status ≠ 200 → status ≠ 403 →
        search_wikidata status body = Except.ok []) ∧
      (∀ body, search_wikidata 200 body = Except.ok body) :=
  ⟨fun _ => rfl,
    fun status _ h200 h403 => by simp [search_wikidata, h200, h403],
    fun _ => rfl⟩

/-- Witness for C7: a 500 status is neither success nor authorization
denial, and yields the empty candidate list. -/
theorem search_wikidata_failure_semantics_witness :
    (500 : Nat) ≠ 200 ∧ (500 : Nat) ≠ 403 ∧
      search_wikidata 500 [⟨"x", []⟩] = Except.ok [] :=
  ⟨by decide, by decide,
    search_wikidata_failure_semantics.2.1 500 [⟨"x", []⟩] (by decide)
      (by decide)⟩

/-- C4: parsing the token input "<triplet> Earth <subj> Sun <obj> orbits"
yields at least one Triple whose three fields, after whitespace stripping,
are the non-empty strings head = "Earth", relation = "orbits", tail = "Sun"
(the relation is accumulated after the `<obj>` marker and the tail after the
`<subj>` marker, per the observed role bindings). -/
theorem extract_triplets_earth_sun_orbits :
    ∃ tr ∈ extract_triplets "<triplet> Earth <subj> Sun <obj> orbits",
      tr.head = "Earth" ∧ tr.type = "orbits" ∧ tr.tail = "Sun" ∧
      tr.head ≠ "" ∧ tr.type ≠ "" ∧ tr.tail ≠ "" := by
  decide

/-- C5: on the subject-boundary marker `<subj>` with a non-empty relation
buffer, the parser emits Triple{head = subject, relation = relation,
tail = object_} (each stripped), resets exactly the buffers `subject` and
`object_` (the relation buffer is left unchanged), and sets the current
accumulation target to the tail-role buffer (tag "s"). -/
theorem extractStep_subj_marker (triplets : List Triple) (st : TripState)
    (h : st.relation ≠ "") :
    extractStep (triplets, st) "<subj>" =
      (triplets ++ [⟨pyStrip st.subject, pyStrip st.relation, pyStrip st.object_⟩],
        { relation := st.relation, subject := "", object_ := "", current := "s" }) := by
  simp [extractStep, h]

/-- Witness for C5 at a concrete state: relation buffer " r" is non-empty,
and the step emits the stripped triple, clears subject and object_, keeps
the relation buffer, and retargets to "s". -/
theorem extractStep_subj_marker_witness :
    (" r" : String) ≠ "" ∧
      extractStep ([], ⟨" r", " a", " b", "o"⟩) "<subj>" =
        ([⟨"a", "r", "b"⟩], ⟨" r", "", "", "s"⟩) :=
  ⟨by decide,
    (extractStep_subj_marker [] ⟨" r", " a", " b", "o"⟩ (by decide)).trans
      (by decide)⟩

/-- C10: on the token input "<obj> rel <triplet>" the parser emits a Triple
whose head and tail are both empty strings — a marker-triggered emission
requires only a non-empty relation buffer, while the end-of-stream emission
(which requires all three buffers non-empty) does not fire here. -/
theorem extract_triplets_empty_head_tail :
    extract_triplets "<obj> rel <triplet>" = [⟨"", "rel", ""⟩] ∧
      ∃ tr ∈ extract_triplets "<obj> rel <triplet>",
        tr.head = "" ∧ tr.tail = "" := by
  decide

/-- A linked triple as written by `filter_entities.py` and read back by
`build_graph_data.py`: canonical labels, original mentions and relation. -/
structure LinkedTriple where
  linked_head : String
  original_head : String
  type : String
  linked_tail : String
  original_tail : String
deriving DecidableEq, Repr

/-- An aggregated raw edge: the sorted unordered pair and its count, i.e.
one dict `{"head": k[0], "tail": k[1], "raw_edge_weight": v}`. -/
structure RawEdge where
  head : String
  tail : String
  raw_edge_weight : Nat
deriving DecidableEq, Repr

/-- Python `tuple(sorted([h, t]))` for two strings. -/
def sortedPair (h t : String) : String × String :=
  if h ≤ t then (h, t) else (t, h)

/-- Incrementing `edge_counts[key]` on an insertion-ordered counter
(`defaultdict(int)`): bump the existing entry, or append `(key, 1)`. -/
def bumpCount (key : String × String) :
    List ((String × String) × Nat) → List ((String × String) × Nat)
  | [] => [(key, 1)]
  | (k, v) :: rest =>
    if k = key then (k, v + 1) :: rest else (k, v) :: bumpCount key rest

/-- One iteration of the aggregation loop of `generate_raw_edge_counts`
(`build_graph_data.py`, lines 125-139): skip self-loops, sort the pair,
increment its count. -/
def edgeCountStep (m : List ((String × String) × Nat)) (row : LinkedTriple) :
    List ((String × String) × Nat) :=
  if row.linked_head = row.linked_tail then m
  else bumpCount (sortedPair row.linked_head row.linked_tail) m

/-- The function `generate_raw_edge_counts` of `build_graph_data.py`:
fold the counting loop over the rows, then convert the counter to the list
of raw-edge records in insertion order. -/
def generate_raw_edge_counts (kg_nodes_edges : List LinkedTriple) :
    List RawEdge :=
  ((kg_nodes_edges.foldl edgeCountStep []).map
    fun kv => RawEdge.mk kv.1.1 kv.1.2 kv.2)

theorem sortedPair_eq_min_max (h t : String) :
    sortedPair h t = (min h t, max h t) := by
  unfold sortedPair
  by_cases hle : h ≤ t
  · rw [if_pos hle, min_eq_left hle, max_eq_right hle]
  · rw [if_neg hle, min_eq_right (le_of_not_le hle),
      max_eq_left (le_of_not_le hle)]

theorem bumpCount_keys (key : String × String) :
    ∀ m : List ((String × String) × Nat),
      (bumpCount key m).map Prod.fst =
        if key ∈ m.map Prod.fst then m.map Prod.fst
        else m.map Prod.fst ++ [key] := by
  intro m
  induction m with
  | nil => simp [bumpCount]
  | cons kv rest ih =>
    obtain ⟨k, v⟩ := kv
    by_cases hk : k = key
    · subst hk
      simp [bumpCount]
    · simp only [bumpCount, if_neg hk, List.map_cons, List.mem_cons]
      rw [ih]
      by_cases hmem : key ∈ rest.map Prod.fst
      · rw [if_pos hmem, if_pos (Or.inr hmem)]
      · rw [if_neg hmem, if_neg (by
          intro hor
          rcases hor with h1 | h2
          · exact hk h1.symm
          · exact hmem h2)]
        simp

theorem edgeCountStep_inv (m : List ((String × String) × Nat))
    (row : LinkedTriple)
    (h1 : ∀ p ∈ m.map Prod.fst, p.1 < p.2)
    (h2 : (m.map Prod.fst).Nodup) :
    (∀ p ∈ (edgeCountStep m row).map Prod.fst, p.1 < p.2) ∧
      ((edgeCountStep m row).map Prod.fst).Nodup := by
  unfold edgeCountStep
  by_cases hself : row.linked_head = row.linked_tail
  · rw [if_pos hself]; exact ⟨h1, h2⟩
  · rw [if_neg hself]
    rw [bumpCount_keys]
    by_cases hmem :
        sortedPair row.linked_head row.linked_tail ∈ m.map Prod.fst
    · rw [if_pos hmem]; exact ⟨h1, h2⟩
    · rw [if_neg hmem]
      constructor
      · intro p hp
        rcases List.mem_append.mp hp with hin | hnew
        · exact h1 p hin
        · have hpeq : p = sortedPair row.linked_head row.linked_tail := by
            simpa using hnew
          subst hpeq
          rw [sortedPair_eq_min_max]
          exact min_lt_max.mpr hself
      · simp only [List.nodup_append, List.nodup_cons, List.nodup_nil]
        exact ⟨h2, by simp, by simpa using hmem⟩

theorem foldl_edgeCountStep_inv (rows : List LinkedTriple) :
    ∀ m : List ((String × String) × Nat),
      (∀ p ∈ m.map Prod.fst, p.1 < p.2) → (m.map Prod.fst).Nodup →
      (∀ p ∈ (rows.foldl edgeCountStep m).map Prod.fst, p.1 < p.2) ∧
        ((rows.foldl edgeCountStep m).map Prod.fst).Nodup := by
  induction rows with
  | nil => intro m h1 h2; exact ⟨h1, h2⟩
  | cons row rest ih =>
    intro m h1 h2
    have hstep := edgeCountStep_inv m row h1 h2
    exact ih (edgeCountStep m row) hstep.1 hstep.2

theorem foldl_edgeCountStep_filter (rows : List LinkedTriple) :
    ∀ m : List ((String × String) × Nat),
      rows.foldl edgeCountStep m =
        (rows.filter fun r =>
          decide (r.linked_head ≠ r.linked_tail)).foldl edgeCountStep m := by
  induction rows with
  | nil => intro m; rfl
  | cons row rest ih =>
    intro m
    by_cases hself : row.linked_head = row.linked_tail
    · have hm : edgeCountStep m row = m := by
        unfold edgeCountStep; rw [if_pos hself]
      have hdec : decide (row.linked_head ≠ row.linked_tail) = false := by
        simp [hself]
      simp only [List.foldl_cons, List.filter_cons, hdec, hm]
      simp only [Bool.false_eq_true, if_false]
      exact ih m
    · have hdec : decide (row.linked_head ≠ row.linked_tail) = true := by
        simp [hself]
      simp only [List.foldl_cons, List.filter_cons, hdec, if_true]
      exact ih (edgeCountStep m row)

theorem generate_raw_edge_counts_pairs (rows : List LinkedTriple) :
    (generate_raw_edge_counts rows).map (fun e => (e.head, e.tail)) =
      (rows.foldl edgeCountStep []).map Prod.fst := by
  unfold generate_raw_edge_counts
  rw [List.map_map]
  apply List.map_congr_left
  intro kv _
  rfl

/-- C8: the raw aggregation drops self-loop rows (they contribute nothing),
every produced edge has head strictly less than tail under the string
order, each unordered pair appears at most once, and two rows with swapped
endpoints produce the single edge (min, max) with raw weight 2. -/
theorem generate_raw_edge_counts_invariants :
    (∀ rows : List LinkedTriple,
        generate_raw_edge_counts rows =
          generate_raw_edge_counts (rows.filter fun r =>
            decide (r.linked_head ≠ r.linked_tail))) ∧
      (∀ rows : List LinkedTriple, ∀ e ∈ generate_raw_edge_counts rows,
        e.head < e.tail) ∧
      (∀ rows : List LinkedTriple,
        ((generate_raw_edge_counts rows).map
          fun e => (e.head, e.tail)).Nodup) ∧
      (∀ A B oh1 ty1 ot1 oh2 ty2 ot2, A ≠ B →
        generate_raw_edge_counts
            [LinkedTriple.mk A oh1 ty1 B ot1, LinkedTriple.mk B oh2 ty2 A ot2] =
          [RawEdge.mk (min A B) (max A B) 2]) := by
  refine ⟨?_, ?_, ?_, ?_⟩
  · intro rows
    unfold generate_raw_edge_counts
    rw [foldl_edgeCountStep_filter rows []]
  · intro rows e he
    have hinv := foldl_edgeCountStep_inv rows [] (by simp) (by simp)
    have hmem : (e.head, e.tail) ∈
        (rows.foldl edgeCountStep []).map Prod.fst := by
      rw [← generate_raw_edge_counts_pairs]
      exact List.mem_map_of_mem _ he
    exact hinv.1 (e.head, e.tail) hmem
  · intro rows
    rw [generate_raw_edge_counts_pairs]
    exact (foldl_edgeCountStep_inv rows [] (by simp) (by simp)).2
  · intro A B oh1 ty1 ot1 oh2 ty2 ot2 hne
    unfold generate_raw_edge_counts
    simp only [List.foldl_cons, List.foldl_nil, edgeCountStep, hne,
      if_false, hne.symm, sortedPair_eq_min_max, min_comm B A, max_comm B A,
      bumpCount, if_pos rfl, List.map_cons, List.map_nil, ite_false]
    simp

/-- Witness for C8: two triples with swapped endpoints "a", "b" (and
arbitrary other fields) yield the single edge ("a", "b") with weight 2. -/
theorem generate_raw_edge_counts_invariants_witness :
    ("a" : String) ≠ "b" ∧
      generate_raw_edge_counts
          [LinkedTriple.mk "a" "oa" "rel" "b" "ob",
            LinkedTriple.mk "b" "ob" "rel" "a" "oa"] =
        [RawEdge.mk (min "a" "b") (max "a" "b") 2] :=
  ⟨by decide,
    generate_raw_edge_counts_invariants.2.2.2 "a" "b" "oa" "rel" "ob" "ob"
      "rel" "oa" (by decide)⟩

/-- A finalized edge of the normalized graph: the dict
`{"head": ..., "tail": ..., "edge weight": ...}` built by `normalize_edges`.
Weights (Python floats) are modelled as rationals. -/
structure Edge where
  head : String
  tail : String
  edge_weight : ℚ
deriving DecidableEq, Repr

/-- Python `min` over a list; only ever applied to non-empty lists
(Python raises `ValueError` on an empty one — the empty case is cut off
before this is reached). -/
def pyMin {α : Type} [LinearOrder α] [Inhabited α] : List α → α
  | [] => default
  | x :: xs => xs.foldl min x

/-- Python `max` over a list; only ever applied to non-empty lists. -/
def pyMax {α : Type} [LinearOrder α] [Inhabited α] : List α → α
  | [] => default
  | x :: xs => xs.foldl max x

/-- The raw weights of the edge list, as rational numbers
(`raw_weights = [e['raw_edge_weight'] for e in kg_data_raw_edge_counts]`). -/
def rawWeightsQ (edges : List RawEdge) : List ℚ :=
  edges.map fun e => (e.raw_edge_weight : ℚ)

/-- The initial normalization of `normalize_edges`
(`build_graph_data.py`, lines 167-187): all weights become 1 when
`max_w == min_w`, otherwise `(w - min_w) / (max_w - min_w)`. -/
def codeNormalizedWeights (edges : List RawEdge) : List ℚ :=
  if pyMax (rawWeightsQ edges) = pyMin (rawWeightsQ edges) then
    (rawWeightsQ edges).map fun _ => 1
  else
    (rawWeightsQ edges).map fun w =>
      (w - pyMin (rawWeightsQ edges)) /
        (pyMax (rawWeightsQ edges) - pyMin (rawWeightsQ edges))

/-- The pruning step of `normalize_edges` (lines 189-200): when the
threshold is positive, index the ascending sort of the normalized weights
at `int(len * threshold / 100)` — `none` models the `IndexError` when that
index is out of range — and keep the edges whose attached normalized weight
is strictly greater than the cutoff.  A threshold of 0 skips pruning. -/
def codePrune (edges : List RawEdge) (renormalization_threshold : Nat) :
    Option (List (RawEdge × ℚ)) :=
  if renormalization_threshold > 0 then
    match (List.insertionSort (· ≤ ·)
        (codeNormalizedWeights edges))[edges.length *
          renormalization_threshold / 100]? with
    | none => none
    | some threshold =>
      some ((edges.zip (codeNormalizedWeights edges)).filter
        fun p => decide (threshold < p.2))
  else
    some (edges.zip (codeNormalizedWeights edges))

/-- The renormalization step of `normalize_edges` (lines 202-225): skipped
when nothing survived; otherwise min-max scaling over the surviving
normalized weights, writing the result into the `edge weight` key. -/
def codeRenormalize (pruned : List (RawEdge × ℚ)) : List Edge :=
  if pruned = [] then []
  else if pyMax (pruned.map fun p => p.2) = pyMin (pruned.map fun p => p.2) then
    pruned.map fun p => Edge.mk p.1.head p.1.tail 1
  else
    pruned.map fun p =>
      Edge.mk p.1.head p.1.tail
        ((p.2 - pyMin (pruned.map fun q => q.2)) /
          (pyMax (pruned.map fun q => q.2) - pyMin (pruned.map fun q => q.2)))

/-- The function `normalize_edges` of `build_graph_data.py`: initial
normalization, threshold pruning, renormalization.  `none` models a raised
exception (`ValueError` from `min`/`max` on an empty list, or `IndexError`
from an out-of-range cutoff index). -/
def normalize_edges (kg_data_raw_edge_counts : List RawEdge)
    (renormalization_threshold : Nat) : Option (List Edge) :=
  if kg_data_raw_edge_counts = [] then none
  else
    match codePrune kg_data_raw_edge_counts renormalization_threshold with
    | none => none
    | some pruned => some (codeRenormalize pruned)

/-- The normalized weight of one edge as §4.5 Step 2 describes it, for
comparison with the code path. -/
def normalizedWeightSpec (edges : List RawEdge) (e : RawEdge) : ℚ :=
  if pyMax (rawWeightsQ edges) = pyMin (rawWeightsQ edges) then 1
  else
    ((e.raw_edge_weight : ℚ) - pyMin (rawWeightsQ edges)) /
      (pyMax (rawWeightsQ edges) - pyMin (rawWeightsQ edges))

/-- The pruning cutoff as §4.5 Step 3 describes it: the value at index
⌊N·P/100⌋ of the ascending sort of the normalized weights. -/
def pruneCutoffSpec (edges : List RawEdge) (P : Nat) : ℚ :=
  (List.insertionSort (· ≤ ·)
    (edges.map (normalizedWeightSpec edges))).getD (edges.length * P / 100) 0

theorem codeNormalizedWeights_eq_spec (edges : List RawEdge) :
    codeNormalizedWeights edges = edges.map (normalizedWeightSpec edges) := by
  unfold codeNormalizedWeights
  by_cases h : pyMax (rawWeightsQ edges) = pyMin (rawWeightsQ edges)
  · rw [if_pos h]
    unfold rawWeightsQ
    rw [List.map_map]
    apply List.map_congr_left
    intro e _
    simp [normalizedWeightSpec, h]
  · rw [if_neg h]
    unfold rawWeightsQ
    rw [List.map_map]
    apply List.map_congr_left
    intro e _
    rw [normalizedWeightSpec, if_neg h]
    rfl

theorem zip_map_self {α β : Type} (f : α → β) :
    ∀ l : List α, l.zip (l.map f) = l.map fun a => (a, f a) := by
  intro l
  induction l with
  | nil => rfl
  | cons a t ih => simp [ih]

theorem codeRenormalize_pairs (pruned : List (RawEdge × ℚ)) :
    (codeRenormalize pruned).map (fun e => (e.head, e.tail)) =
      pruned.map fun p => (p.1.head, p.1.tail) := by
  unfold codeRenormalize
  by_cases hnil : pruned = []
  · subst hnil; rfl
  · rw [if_neg hnil]
    by_cases hmm : pyMax (pruned.map fun p => p.2) =
        pyMin (pruned.map fun p => p.2)
    · rw [if_pos hmm, List.map_map]; rfl
    · rw [if_neg hmm, List.map_map]; rfl

theorem codePrune_pos (edges : List RawEdge) (P : Nat) (hne : edges ≠ [])
    (hP0 : 0 < P) (hP100 : P < 100) :
    codePrune edges P =
      some ((edges.filter fun e =>
          decide (pruneCutoffSpec edges P < normalizedWeightSpec edges e)).map
        fun e => (e, normalizedWeightSpec edges e)) := by
  have hN : 0 < edges.length := List.length_pos.mpr hne
  have hidx : edges.length * P / 100 < edges.length := by
    apply Nat.div_lt_of_lt_mul
    calc edges.length * P < edges.length * 100 :=
          mul_lt_mul_of_pos_left hP100 hN
      _ = 100 * edges.length := Nat.mul_comm _ _
  have hidx2 : edges.length * P / 100 <
      (List.insertionSort (· ≤ ·) (codeNormalizedWeights edges)).length := by
    rw [List.length_insertionSort, codeNormalizedWeights_eq_spec,
      List.length_map]
    exact hidx
  have hcut2 : (List.insertionSort (· ≤ ·)
      (codeNormalizedWeights edges))[edges.length * P / 100]? =
        some (pruneCutoffSpec edges P) := by
    rw [List.getElem?_eq_getElem hidx2, pruneCutoffSpec,
      ← codeNormalizedWeights_eq_spec, List.getD_eq_getElem?_getD,
      List.getElem?_eq_getElem hidx2]
    simp
  rw [codePrune, if_pos hP0, hcut2]
  show some ((edges.zip (codeNormalizedWeights edges)).filter
      fun p => decide (pruneCutoffSpec edges P < p.2)) = _
  rw [codeNormalizedWeights_eq_spec, zip_map_self, List.filter_map]
  rfl

theorem codePrune_zero (edges : List RawEdge) :
    codePrune edges 0 =
      some (edges.map fun e => (e, normalizedWeightSpec edges e)) := by
  rw [codePrune]
  simp only [gt_iff_lt, lt_self_iff_false, if_false]
  rw [codeNormalizedWeights_eq_spec, zip_map_self]

/-- C2, corrected: for every non-empty edge list and integer percentile
threshold P with 0 < P < 100 (amended from the claimed (0,100]: at P = 100
the cutoff index ⌊N·P/100⌋ equals N and the code raises IndexError), the
pruning step sorts the normalized weights ascending, takes the value at
index ⌊N·P/100⌋ as the cutoff, and the output retains exactly the edges
whose normalized weight is strictly greater than that cutoff; with P = 0
every edge is retained. -/
theorem normalize_edges_prune_strict :
    (∀ (edges : List RawEdge) (P : Nat), edges ≠ [] → 0 < P → P < 100 →
      ∃ out, normalize_edges edges P = some out ∧
        out.map (fun e => (e.head, e.tail)) =
          (edges.filter fun e =>
            decide (pruneCutoffSpec edges P <
              normalizedWeightSpec edges e)).map
            fun e => (e.head, e.tail)) ∧
      (∀ edges : List RawEdge, edges ≠ [] →
        ∃ out, normalize_edges edges 0 = some out ∧
          out.map (fun e => (e.head, e.tail)) =
            edges.map fun e => (e.head, e.tail)) := by
  constructor
  · intro edges P hne hP0 hP100
    refine ⟨codeRenormalize ((edges.filter fun e =>
        decide (pruneCutoffSpec edges P <
          normalizedWeightSpec edges e)).map
        fun e => (e, normalizedWeightSpec edges e)), ?_, ?_⟩
    · rw [normalize_edges, if_neg hne, codePrune_pos edges P hne hP0 hP100]
    · rw [codeRenormalize_pairs, List.map_map]
      rfl
  · intro edges hne
    refine ⟨codeRenormalize (edges.map fun e =>
        (e, normalizedWeightSpec edges e)), ?_, ?_⟩
    · rw [normalize_edges, if_neg hne, codePrune_zero edges]
    · rw [codeRenormalize_pairs, List.map_map]
      rfl

/-- Witness for C2 at the §8 scenario {(a,b): 10, (a,c): 1, (b,c): 5} with
P = 50 (one survivor) and P = 0 (all survive). -/
theorem normalize_edges_prune_strict_witness :
    ([RawEdge.mk "a" "b" 10, RawEdge.mk "a" "c" 1, RawEdge.mk "b" "c" 5] :
        List RawEdge) ≠ [] ∧ (0 : Nat) < 50 ∧ (50 : Nat) < 100 ∧
      (∃ out, normalize_edges
            [RawEdge.mk "a" "b" 10, RawEdge.mk "a" "c" 1,
              RawEdge.mk "b" "c" 5] 50 = some out ∧
          out.map (fun e => (e.head, e.tail)) =
            ([RawEdge.mk "a" "b" 10, RawEdge.mk "a" "c" 1,
                RawEdge.mk "b" "c" 5].filter fun e =>
              decide (pruneCutoffSpec
                  [RawEdge.mk "a" "b" 10, RawEdge.mk "a" "c" 1,
                    RawEdge.mk "b" "c" 5] 50 <
                normalizedWeightSpec
                  [RawEdge.mk "a" "b" 10, RawEdge.mk "a" "c" 1,
                    RawEdge.mk "b" "c" 5] e)).map
              fun e => (e.head, e.tail)) ∧
      (∃ out, normalize_edges
            [RawEdge.mk "a" "b" 10, RawEdge.mk "a" "c" 1,
              RawEdge.mk "b" "c" 5] 0 = some out ∧
          out.map (fun e => (e.head, e.tail)) =
            [RawEdge.mk "a" "b" 10, RawEdge.mk "a" "c" 1,
              RawEdge.mk "b" "c" 5].map fun e => (e.head, e.tail)) :=
  ⟨by decide, by decide, by decide,
    normalize_edges_prune_strict.1 _ 50 (by decide) (by decide) (by decide),
    normalize_edges_prune_strict.2 _ (by decide)⟩

/-- Counterexample for C2 as stated: at P = 100 (allowed by the claimed
interval (0,100]) on a one-edge list, the cutoff index ⌊1·100/100⌋ = 1 is
out of range for the sorted one-element weight list, and `normalize_edges`
raises (returns `none`) instead of retaining any set of edges. -/
theorem normalize_edges_p100_out_of_range :
    normalize_edges [RawEdge.mk "a" "b" 1] 100 = none := by decide

/-- Python `(buffer + chunk).split("\n")` on character lists: split at every
newline, keeping empty segments; the result is always non-empty and its
last element is the text after the last newline. -/
def splitNl : List Char → List (List Char)
  | [] => [[]]
  | c :: cs =>
    if c = '\n' then [] :: splitNl cs
    else (c :: (splitNl cs).headD []) :: (splitNl cs).tail

/-- Joining segments with the newline delimiter reinserted between them
(the inverse of `splitNl`). -/
def joinNl : List (List Char) → List Char
  | [] => []
  | [l] => l
  | l :: ls => l ++ '\n' :: joinNl ls

theorem splitNl_ne_nil : ∀ s : List Char, splitNl s ≠ [] := by
  intro s
  cases s with
  | nil => simp [splitNl]
  | cons c cs =>
    simp only [splitNl]
    by_cases hc : c = '\n'
    · simp [hc]
    · simp [hc]

theorem joinNl_cons (x : List Char) (ls : List (List Char)) (h : ls ≠ []) :
    joinNl (x :: ls) = x ++ '\n' :: joinNl ls := by
  cases ls with
  | nil => exact absurd rfl h
  | cons y t => rfl

theorem joinNl_splitNl : ∀ s : List Char, joinNl (splitNl s) = s := by
  intro s
  induction s with
  | nil => rfl
  | cons c cs ih =>
    obtain ⟨h, t, hs⟩ := List.exists_cons_of_ne_nil (splitNl_ne_nil cs)
    simp only [splitNl]
    by_cases hc : c = '\n'
    · rw [if_pos hc, joinNl_cons _ _ (splitNl_ne_nil cs), ih, hc]
      rfl
    · rw [if_neg hc, hs]
      rw [hs] at ih
      simp only [List.headD_cons, List.tail_cons]
      cases t with
      | nil =>
        simp only [joinNl] at ih ⊢
        rw [ih]
      | cons t1 ts =>
        rw [joinNl_cons h (t1 :: ts) (by simp)] at ih
        rw [joinNl_cons (c :: h) (t1 :: ts) (by simp)]
        rw [List.cons_append, ih]

theorem nl_not_mem_splitNl_last : ∀ s : List Char,
    '\n' ∉ (splitNl s).getLastD [] := by
  intro s
  induction s with
  | nil => simp [splitNl]
  | cons c cs ih =>
    simp only [splitNl]
    by_cases hc : c = '\n'
    · rw [if_pos hc, List.getLastD_cons]
      exact ih
    · obtain ⟨h, t, hs⟩ := List.exists_cons_of_ne_nil (splitNl_ne_nil cs)
      rw [if_neg hc, hs]
      rw [hs] at ih
      simp only [List.headD_cons, List.tail_cons]
      rw [List.getLastD_cons]
      rw [List.getLastD_cons] at ih
      cases t with
      | nil =>
        simp only [List.getLastD_nil] at ih ⊢
        intro hmem
        rcases List.mem_cons.mp hmem with h1 | h2
        · exact hc h1.symm
        · exact ih h2
      | cons t1 ts => exact ih

theorem joinNl_eq_flatten_dropLast_append : ∀ l : List (List Char), l ≠ [] →
    ∀ d : List Char,
      List.flatten (l.dropLast.map fun x => x ++ ['\n']) ++ l.getLastD d =
        joinNl l := by
  intro l
  induction l with
  | nil => intro h; exact absurd rfl h
  | cons x ls ih =>
    intro _ d
    cases ls with
    | nil => simp [joinNl]
    | cons y t =>
      rw [joinNl_cons _ _ (by simp), List.getLastD_cons]
      rw [← ih (by simp) x]
      simp

/-- The line loop of `read_lines_zst` (`extract_data.py`, lines 74-99):
`chunks` are the successive non-empty decoded strings returned by
`read_and_decode`; the loop stops at the first empty chunk (modelling
`if not chunk: break` at end of stream).  Each round splits
`buffer + chunk` on the newline, yields every segment but the last, and
carries the last segment as the new buffer.  The result is the pair
(yielded lines in order, final carried buffer — never yielded). -/
def readLinesLoop : List Char → List (List Char) → List (List Char) × List Char
  | buffer, [] => ([], buffer)
  | buffer, chunk :: rest =>
    if chunk = [] then ([], buffer)
    else
      ((splitNl (buffer ++ chunk)).dropLast ++
          (readLinesLoop ((splitNl (buffer ++ chunk)).getLastD []) rest).1,
        (readLinesLoop ((splitNl (buffer ++ chunk)).getLastD []) rest).2)

/-- The generator `read_lines_zst` over a whole stream of decoded chunks,
starting with the empty carried buffer. -/
def read_lines_zst (chunks : List (List Char)) :
    List (List Char) × List Char :=
  readLinesLoop [] chunks

theorem readLinesLoop_reconstruct :
    ∀ chunks : List (List Char), (∀ c ∈ chunks, c ≠ []) →
      ∀ buffer : List Char,
        List.flatten ((readLinesLoop buffer chunks).1.map fun l =>
            l ++ ['\n']) ++ (readLinesLoop buffer chunks).2 =
          buffer ++ List.flatten chunks := by
  intro chunks
  induction chunks with
  | nil => intro _ buffer; simp [readLinesLoop]
  | cons c rest ih =>
    intro h buffer
    have hc : c ≠ [] := h c (List.mem_cons_self c rest)
    have hrest : ∀ x ∈ rest, x ≠ [] :=
      fun x hx => h x (List.mem_cons_of_mem c hx)
    simp only [readLinesLoop, if_neg hc, List.map_append,
      List.flatten_append, List.flatten_cons, List.append_assoc]
    rw [ih hrest ((splitNl (buffer ++ c)).getLastD [])]
    rw [← List.append_assoc
      (List.flatten (((splitNl (buffer ++ c)).dropLast).map
        fun l => l ++ ['\n']))]
    rw [joinNl_eq_flatten_dropLast_append (splitNl (buffer ++ c))
      (splitNl_ne_nil _) []]
    rw [joinNl_splitNl, List.append_assoc]

theorem readLinesLoop_buffer_no_nl :
    ∀ (chunks : List (List Char)) (buffer : List Char), '\n' ∉ buffer →
      '\n' ∉ (readLinesLoop buffer chunks).2 := by
  intro chunks
  induction chunks with
  | nil => intro buffer h; exact h
  | cons c rest ih =>
    intro buffer h
    by_cases hc : c = []
    · simp only [readLinesLoop, if_pos hc]
      exact h
    · simp only [readLinesLoop, if_neg hc]
      exact ih _ (nl_not_mem_splitNl_last (buffer ++ c))

theorem flatten_map_concat_nl_ends : ∀ ys : List (List Char), ys ≠ [] →
    ∃ zs, List.flatten (ys.map fun l => l ++ ['\n']) = zs ++ ['\n'] := by
  intro ys
  induction ys with
  | nil => intro h; exact absurd rfl h
  | cons y t ih =>
    intro _
    cases t with
    | nil => exact ⟨y, by simp⟩
    | cons t1 ts =>
      obtain ⟨zs, hzs⟩ := ih (by simp)
      refine ⟨(y ++ ['\n']) ++ zs, ?_⟩
      simp only [List.map_cons, List.flatten_cons] at hzs ⊢
      rw [hzs]
      simp [List.append_assoc]

/-- C3: for every decoded chunk stream (each read non-empty, as at end of
stream `read_and_decode` returns the empty string and the loop stops), the
yielded lines with the newline delimiter reinserted after each, followed by
the final carried segment, reconstruct the decoded text exactly; the
carried segment contains no newline (it is the text after the last
delimiter), and when the stream ends without a trailing newline that final
undelimited remainder is non-empty — held in the carried slot, never among
the yielded lines. -/
theorem read_lines_zst_reconstruction (chunks : List (List Char))
    (hch : ∀ c ∈ chunks, c ≠ []) :
    List.flatten ((read_lines_zst chunks).1.map fun l => l ++ ['\n']) ++
        (read_lines_zst chunks).2 = List.flatten chunks ∧
      '\n' ∉ (read_lines_zst chunks).2 ∧
      (List.flatten chunks ≠ [] →
        (List.flatten chunks).getLast? ≠ some '\n' →
        (read_lines_zst chunks).2 ≠ []) := by
  have hrec : List.flatten ((read_lines_zst chunks).1.map fun l =>
      l ++ ['\n']) ++ (read_lines_zst chunks).2 =
        [] ++ List.flatten chunks :=
    readLinesLoop_reconstruct chunks hch []
  rw [List.nil_append] at hrec
  refine ⟨hrec, ?_, ?_⟩
  · exact readLinesLoop_buffer_no_nl chunks [] (by simp)
  · intro hne hlast hfin
    rw [hfin, List.append_nil] at hrec
    by_cases hys : (read_lines_zst chunks).1 = []
    · rw [hys] at hrec
      simp only [List.map_nil, List.flatten_nil] at hrec
      exact hne hrec.symm
    · obtain ⟨zs, hzs⟩ := flatten_map_concat_nl_ends _ hys
      rw [hzs] at hrec
      apply hlast
      rw [← hrec]
      exact List.getLast?_concat _

/-- Witness for C3 on the stream "a\nb", "c": the single yielded line is
"a" and the carried remainder "bc" is non-empty and never yielded. -/
theorem read_lines_zst_reconstruction_witness :
    (∀ c ∈ [['a', '\n', 'b'], ['c']], c ≠ ([] : List Char)) ∧
      (List.flatten ((read_lines_zst [['a', '\n', 'b'], ['c']]).1.map
          fun l => l ++ ['\n']) ++
          (read_lines_zst [['a', '\n', 'b'], ['c']]).2 =
        List.flatten [['a', '\n', 'b'], ['c']] ∧
      '\n' ∉ (read_lines_zst [['a', '\n', 'b'], ['c']]).2 ∧
      (List.flatten [['a', '\n', 'b'], ['c']] ≠ [] →
        (List.flatten [['a', '\n', 'b'], ['c']]).getLast? ≠ some '\n' →
        (read_lines_zst [['a', '\n', 'b'], ['c']]).2 ≠ [])) ∧
      read_lines_zst [['a', '\n', 'b'], ['c']] = ([['a']], ['b', 'c']) :=
  ⟨by decide, read_lines_zst_reconstruction [['a', '\n', 'b'], ['c']]
    (by decide), by decide⟩

/-- The function `read_and_decode` of `extract_data.py` (identical in
`data_extraction/submissions_extraction.py`).  The stateful reader is
modelled by `reads`, giving the bytes returned by the k-th `reader.read`
call; `decode` models `bytes.decode()` (`none` = `UnicodeDecodeError`).
Per the source, `bytes_read` grows by `chunk_size` at every read; on decode
failure the error `Except.error bytes_read` (the `UnicodeError` carrying
the byte count) is raised once `bytes_read` exceeds `max_window_size`,
otherwise the call recurses on the grown concatenation.  The second
component of the result counts the reads performed.  The positivity of
`chunk_size` is what makes the recursion terminate. -/
def read_and_decode (reads : Nat → List Nat)
    (decode : List Nat → Option (List Char)) (chunk_size max_window_size : Nat)
    (hpos : 0 < chunk_size) (previous_chunk : List Nat)
    (bytes_read k : Nat) : Except Nat (List Char) × Nat :=
  match decode (previous_chunk ++ reads k) with
  | some s => (Except.ok s, 1)
  | none =>
    if h : max_window_size < bytes_read + chunk_size then
      (Except.error (bytes_read + chunk_size), 1)
    else
      ((read_and_decode reads decode chunk_size max_window_size hpos
          (previous_chunk ++ reads k) (bytes_read + chunk_size) (k + 1)).1,
        (read_and_decode reads decode chunk_size max_window_size hpos
          (previous_chunk ++ reads k) (bytes_read + chunk_size) (k + 1)).2 + 1)
termination_by max_window_size + chunk_size - bytes_read
decreasing_by omega

theorem read_and_decode_spec (reads : Nat → List Nat)
    (decode : List Nat → Option (List Char)) (c m : Nat) (hpos : 0 < c) :
    ∀ meas : Nat, ∀ (prev : List Nat) (b k : Nat), m + c - b = meas →
      (read_and_decode reads decode c m hpos prev b k).2 ≤ (m - b) / c + 1 ∧
        (∀ e, (read_and_decode reads decode c m hpos prev b k).1 =
            Except.error e →
          e = b + (read_and_decode reads decode c m hpos prev b k).2 * c ∧
            m < e) := by
  intro meas
  induction meas using Nat.strong_induction_on with
  | _ meas ih =>
    intro prev b k hmeas
    rw [read_and_decode]
    cases hd : decode (prev ++ reads k) with
    | some s =>
      dsimp only
      refine ⟨Nat.succ_le_succ (Nat.zero_le _), ?_⟩
      intro e he
      exact absurd he (by simp)
    | none =>
      dsimp only
      by_cases hw : m < b + c
      · rw [dif_pos hw]
        dsimp only
        refine ⟨Nat.succ_le_succ (Nat.zero_le _), ?_⟩
        intro e he
        simp only [Except.error.injEq] at he
        subst he
        refine ⟨?_, hw⟩
        rw [Nat.one_mul]
      · rw [dif_neg hw]
        dsimp only
        have hb : b + c ≤ m := le_of_not_lt hw
        have ihr := ih (m + c - (b + c)) (by omega) (prev ++ reads k)
          (b + c) (k + 1) rfl
        rw [Nat.sub_add_eq] at ihr
        have hdiv : (m - b) / c = (m - b - c) / c + 1 :=
          Nat.div_eq_sub_div hpos (by omega)
        refine ⟨?_, ?_⟩
        · rw [hdiv]
          exact Nat.add_le_add_right ihr.1 1
        · intro e he
          obtain ⟨h1, h2⟩ := ihr.2 e he
          refine ⟨?_, h2⟩
          rw [h1, Nat.succ_mul]
          ring

/-- C9: for every reader, decode function, positive chunk size and maximum
window, the boundary-retry decode terminates with either a decoded string
or a decode error; it performs at most ⌈max_window/chunk_size⌉ + 1 chunk
reads, and when it fails, the error carries the byte counter — the number
of reads times the chunk size — which exceeds the maximum window. -/
theorem read_and_decode_terminates_bounded (reads : Nat → List Nat)
    (decode : List Nat → Option (List Char))
    (chunk_size max_window_size : Nat) (hpos : 0 < chunk_size) :
    ((∃ s, (read_and_decode reads decode chunk_size max_window_size hpos
          [] 0 0).1 = Except.ok s) ∨
        (∃ e, (read_and_decode reads decode chunk_size max_window_size hpos
          [] 0 0).1 = Except.error e)) ∧
      (read_and_decode reads decode chunk_size max_window_size hpos
          [] 0 0).2 ≤
        (max_window_size + chunk_size - 1) / chunk_size + 1 ∧
      (∀ e, (read_and_decode reads decode chunk_size max_window_size hpos
          [] 0 0).1 = Except.error e →
        max_window_size < e ∧
          e = (read_and_decode reads decode chunk_size max_window_size hpos
            [] 0 0).2 * chunk_size) := by
  have hspec := read_and_decode_spec reads decode chunk_size max_window_size
    hpos (max_window_size + chunk_size) [] 0 0 rfl
  refine ⟨?_, ?_, ?_⟩
  · cases hr : (read_and_decode reads decode chunk_size max_window_size hpos
        [] 0 0).1 with
    | ok s => exact Or.inl ⟨s, rfl⟩
    | error e => exact Or.inr ⟨e, rfl⟩
  · have hle : max_window_size / chunk_size ≤
        (max_window_size + chunk_size - 1) / chunk_size :=
      Nat.div_le_div_right (by omega)
    have hcount := hspec.1
    rw [Nat.sub_zero] at hcount
    exact le_trans hcount (Nat.add_le_add_right hle 1)
  · intro e he
    obtain ⟨h1, h2⟩ := hspec.2 e he
    refine ⟨h2, ?_⟩
    rw [h1, Nat.zero_add]

/-- Witness for C9: chunk size 2 (positive), window 3, a reader always
returning one byte and a decode that always fails. -/
theorem read_and_decode_terminates_bounded_witness :
    (0 : Nat) < 2 ∧
      ((∃ s, (read_and_decode (fun _ => [0]) (fun _ => none) 2 3 (by decide)
            [] 0 0).1 = Except.ok s) ∨
        (∃ e, (read_and_decode (fun _ => [0]) (fun _ => none) 2 3 (by decide)
            [] 0 0).1 = Except.error e)) ∧
      (read_and_decode (fun _ => [0]) (fun _ => none) 2 3 (by decide)
          [] 0 0).2 ≤ (3 + 2 - 1) / 2 + 1 ∧
      (∀ e, (read_and_decode (fun _ => [0]) (fun _ => none) 2 3 (by decide)
          [] 0 0).1 = Except.error e →
        3 < e ∧
          e = (read_and_decode (fun _ => [0]) (fun _ => none) 2 3 (by decide)
            [] 0 0).2 * 2) :=
  ⟨by decide, read_and_decode_terminates_bounded (fun _ => [0])
    (fun _ => none) 2 3 (by decide)⟩
